import Mathlib

/-!
Verification development for the Discord channel summarizer.

The repository fetches recent messages from a set of Discord channels
(`src/fetcher.py` and the older variant inside `src/fast_summarizer.py`),
summarizes them through a language-model API (`src/summarizer.py`,
`src/fast_summarizer.py`), splits the resulting digest into
transport-sized fragments (`src/utils.py` `split_message`, duplicated in
`src/fast_summarizer.py`), and delivers the fragments through a primary
bot transport with a user-token fallback (`src/main.py`,
`src/sender.py`).

This file shallowly embeds the relevant pure logic:

* the per-source pagination loop with its hours-based time cutoff
  (`_fetch_messages` in `src/fetcher.py` lines 35-72 and
  `_fetch_messages_internal` in `src/fast_summarizer.py` lines 132-183);
* the per-channel aggregation of fetched messages
  (`src/fetcher.py` lines 85-101, `src/fast_summarizer.py` lines 221-252);
* the stable timestamp sort (`src/fetcher.py` line 100);
* `split_message` (`src/utils.py` lines 1-25);
* the URL-wrapping post-processing of `generate_summary`
  (`src/fast_summarizer.py` lines 361-363);
* the primary-send / fallback orchestration (`src/main.py` lines 83-116).

Network requests are modelled by explicit lists of responses; timestamps
by an inductive that records whether the raw ISO-8601 string is missing,
unparseable, or parses to an instant (a natural number).
-/

/-- Result of reading and parsing the timestamp field of one message.
The case `missing` models a timestamp field that is absent or empty
(the `if not ts` skip branch), `bad` models
`datetime.datetime.fromisoformat` raising `ValueError`, and `ok t`
models a successful parse to the instant `t`. -/
inductive TS where
  | missing : TS
  | bad : TS
  | ok : Nat → TS
deriving DecidableEq, Repr

/-- One raw message as returned by the Discord message-history API, with
the fields the fetcher reads: `id`, `timestamp` (already classified as a
`TS`), `content`, and the two author name fields. -/
structure FMsg where
  id : Nat
  ts : TS
  content : Option (List Char) := none
  global_name : Option (List Char) := none
  username : Option (List Char) := none
deriving DecidableEq, Repr

/-- Returns `true` iff the timestamp parsed successfully. -/
def TS.isOk : TS → Bool
  | .ok _ => true
  | _ => false

/-- The classification `msg_time > cutoff` from `src/fetcher.py` line 58:
a message is in-window iff its timestamp parses and is strictly after
the cutoff. -/
def inWin (cutoff : Nat) (m : FMsg) : Bool :=
  match m.ts with
  | .ok t => decide (cutoff < t)
  | _ => false

/-- The classification of the `else: hit_cutoff = True` branch
(`src/fetcher.py` line 60-61): the timestamp parses and is at or before
the cutoff. -/
def pastCutoff (cutoff : Nat) (m : FMsg) : Bool :=
  match m.ts with
  | .ok t => decide (t ≤ cutoff)
  | _ => false

/-- Per-page message classification of `_fetch_messages` in
`src/fetcher.py` lines 53-61.  Iterates over the page in order; a
missing timestamp skips the message; a timestamp that fails to parse
raises `ValueError`, which is caught by the surrounding bare
`except` clause and breaks — modelled as `none`, discarding the
`page_msgs` accumulation of the whole page.  Otherwise returns the
in-window messages of the page (in order) and whether some message was
at or before the cutoff. -/
def procPageStrict (cutoff : Nat) : List FMsg → Option (List FMsg × Bool)
  | [] => some ([], false)
  | m :: rest =>
    match m.ts with
    | .missing => procPageStrict cutoff rest
    | .bad => none
    | .ok t =>
      match procPageStrict cutoff rest with
      | none => none
      | some (pm, hit) =>
        if cutoff < t then some (m :: pm, hit) else some (pm, true)

/-- Per-page message classification of `_fetch_messages_internal` in
`src/fast_summarizer.py` lines 156-170.  Identical to `procPageStrict`
except that a timestamp parse failure is caught by the inner
`except ValueError: continue`, skipping only that message. -/
def procPageSkip (cutoff : Nat) : List FMsg → (List FMsg × Bool)
  | [] => ([], false)
  | m :: rest =>
    let r := procPageSkip cutoff rest
    match m.ts with
    | .missing => r
    | .bad => r
    | .ok t => if cutoff < t then (m :: r.1, r.2) else (r.1, true)

/-- One entry of the list of successive message-history page responses a
channel delivers to the pagination loop: `none` models a transport error
or a non-200 status (the `except`/`status_code` break branches), `some
page` a successful JSON page. -/
abbrev PageResp := Option (List FMsg)

/-- The pagination `while` loop of `_fetch_messages` in `src/fetcher.py`
lines 40-68, run against a fixed list of successive page responses
(the `before=last_id` cursor is implicit in the response sequence).
Returns the accumulated `messages_list` and the number of page requests
issued.  The loop stops after a failed request, an empty page, a page
containing a past-cutoff message, or a page aborted by a timestamp
parse error (whose partial classification is discarded); an exhausted
response list means the loop would issue no further request in the
modelled scenario. -/
def fetchLoopStrict (cutoff : Nat) : List PageResp → (List FMsg × Nat)
  | [] => ([], 0)
  | none :: _ => ([], 1)
  | some page :: rest =>
    if page.isEmpty then ([], 1)
    else
      match procPageStrict cutoff page with
      | none => ([], 1)
      | some (pm, hit) =>
        if hit then (pm, 1)
        else
          let r := fetchLoopStrict cutoff rest
          (pm ++ r.1, r.2 + 1)

/-- The pagination `while` loop of `_fetch_messages_internal` in
`src/fast_summarizer.py` lines 139-178, same modelling as
`fetchLoopStrict` but with per-message parse-error recovery. -/
def fetchLoopSkip (cutoff : Nat) : List PageResp → (List FMsg × Nat)
  | [] => ([], 0)
  | none :: _ => ([], 1)
  | some page :: rest =>
    if page.isEmpty then ([], 1)
    else
      let c := procPageSkip cutoff page
      if c.2 then (c.1, 1)
      else
        let r := fetchLoopSkip cutoff rest
        (c.1 ++ r.1, r.2 + 1)

/-- The final defensive re-filter of `_fetch_messages`
(`src/fetcher.py` lines 69-72): keep exactly the messages whose
timestamp is strictly after the cutoff.  (Every accumulated message has
an already-parsed timestamp, so the re-parse cannot raise.) -/
def finalFilter (cutoff : Nat) (l : List FMsg) : List FMsg :=
  l.filter (inWin cutoff)

/-- Models `_fetch_messages` of `src/fetcher.py` (lines 35-72) for one channel:
pagination loop followed by the defensive cutoff re-filter. -/
def fetch_messages (cutoff : Nat) (server : List PageResp) : List FMsg :=
  finalFilter cutoff (fetchLoopStrict cutoff server).1

/-- Models `_fetch_messages_internal` of `src/fast_summarizer.py`
(lines 132-183) for one channel: pagination loop with per-message parse
recovery followed by the same defensive re-filter. -/
def fetch_messages_internal (cutoff : Nat) (server : List PageResp) : List FMsg :=
  finalFilter cutoff (fetchLoopSkip cutoff server).1

/-- Projection of a parsed timestamp (meaningful when `ts.isOk`). -/
def tOf (m : FMsg) : Nat :=
  match m.ts with
  | .ok t => t
  | _ => 0

/-- Models the whitespace set of the Python methods `str.rstrip` /
`str.strip` / `str.isspace` (ASCII range; the digests at hand contain no exotic
Unicode space characters). -/
def isPySpace (c : Char) : Bool :=
  c = ' ' || c = '\t' || c = '\n' || c = '\r' || c = '\x0b' || c = '\x0c'

/-- Models Python `str.rstrip`: remove trailing whitespace. -/
def rstrip (l : List Char) : List Char :=
  (l.reverse.dropWhile isPySpace).reverse

/-- Models Python `str.strip`: remove leading and trailing whitespace. -/
def pyStrip (l : List Char) : List Char :=
  rstrip (l.dropWhile isPySpace)

/-- Models the newline split of the message (`src/utils.py` line 6):
split at every newline, keeping empty segments. -/
def splitLines : List Char → List (List Char)
  | [] => [[]]
  | c :: rest =>
    match splitLines rest with
    | [] => [[c]]
    | l :: ls => if c = '\n' then [] :: l :: ls else (c :: l) :: ls

/-- Models the newline join: interleave the fragments with single
newlines. -/
def joinNL : List (List Char) → List Char
  | [] => []
  | [l] => l
  | l :: l2 :: ls => l ++ '\n' :: joinNL (l2 :: ls)

/-- The hard split of one over-long line
(`src/utils.py` lines 14-15): fixed windows of `n` characters.
(`range(0, len(line), 0)` would raise in Python; `n = 0` never occurs
because the split is guarded by `len(line) > max_length ≥ 0`.) -/
def chunks (n : Nat) (l : List Char) : List (List Char) :=
  if h : n = 0 ∨ l = [] then []
  else l.take n :: chunks n (l.drop n)
termination_by l.length
decreasing_by
  push_neg at h
  obtain ⟨hn, hl⟩ := h
  have : 0 < l.length := List.length_pos.2 hl
  simp only [List.length_drop]
  omega

/-- Loop state of `split_message`: the accumulated `parts` and the
`current` fragment being grown. -/
structure SMState where
  parts : List (List Char)
  current : List Char
deriving DecidableEq, Repr

/-- One iteration of the `for line in lines` loop of `split_message`
(`src/utils.py` lines 9-20). -/
def smStep (maxLength : Nat) (st : SMState) (line : List Char) : SMState :=
  if st.current.length + line.length + 1 > maxLength then
    let parts1 := if st.current.isEmpty then st.parts
                  else st.parts ++ [rstrip st.current]
    if line.length > maxLength then
      ⟨parts1 ++ chunks maxLength line, []⟩
    else
      ⟨parts1, line ++ ['\n']⟩
  else
    ⟨st.parts, st.current ++ line ++ ['\n']⟩

/-- Models `split_message` (`src/utils.py` lines 1-25; the copy in
`src/fast_summarizer.py` lines 375-429 shares this code path for every
input reaching its loop): return the message whole if it fits,
otherwise greedily pack lines into fragments, flush the last fragment,
and drop empty parts. -/
def split_message (message : List Char) (maxLength : Nat) : List (List Char) :=
  if message.length ≤ maxLength then [message]
  else
    let st := (splitLines message).foldl (smStep maxLength) ⟨[], []⟩
    let parts := if st.current.isEmpty then st.parts
                 else st.parts ++ [rstrip st.current]
    parts.filter (fun p => !p.isEmpty)

/-- Returns `true` iff the last character of the list, when present,
is not whitespace. -/
def lastNotSpace (l : List Char) : Bool :=
  l.getLast?.all (fun c => !isPySpace c)

/-- A line that the greedy packing handles without information loss:
non-empty, within the transport limit, and free of trailing
whitespace. -/
def goodLine (L : Nat) (l : List Char) : Prop :=
  l ≠ [] ∧ l.length ≤ L ∧ lastNotSpace l = true

instance (L : Nat) (l : List Char) : Decidable (goodLine L l) :=
  inferInstanceAs (Decidable (_ ∧ _ ∧ _))

/-- Tests whether `out` is `orig` with some (possibly zero) trailing
whitespace removed. -/
def trimLineMatch (orig out : List Char) : Bool :=
  List.isPrefixOf out orig && (orig.drop out.length).all isPySpace

/-- The relation named by claim C3: `t` equals `s` up to
trailing-whitespace trimming per line — same number of lines, each line
of `t` obtained from the corresponding line of `s` by trimming trailing
whitespace. -/
def trimPerLineEquiv (s t : List Char) : Bool :=
  ((splitLines s).length == (splitLines t).length)
  && (List.zip (splitLines s) (splitLines t)).all
       (fun pq => trimLineMatch pq.1 pq.2)

/-- One aggregated entry of `all_messages_data`
(`src/fetcher.py` lines 93-98): originating channel name, resolved
author name, optional content, and the raw ISO-8601 timestamp string. -/
structure AMsg where
  channel : List Char
  author : List Char
  content : Option (List Char)
  timestamp : List Char
deriving DecidableEq, Repr

/-- Python string comparison: lexicographic by code point, a strict
prefix ordering first. -/
def lexLt : List Char → List Char → Bool
  | [], [] => false
  | [], _ :: _ => true
  | _ :: _, [] => false
  | a :: as, b :: bs => if a < b then true else if b < a then false else lexLt as bs

/-- Stable insertion for the timestamp key: walk past entries whose key
is strictly smaller, so an inserted entry lands before every entry of
equal key that arrived later. -/
def insertByTs (a : AMsg) : List AMsg → List AMsg
  | [] => [a]
  | b :: l => if lexLt b.timestamp a.timestamp then b :: insertByTs a l
              else a :: b :: l

/-- Models the sort of `all_messages_data` on the timestamp-string key
(`src/fetcher.py` line 100; `src/fast_summarizer.py` line 250): CPython
`list.sort` is a stable sort on the key, modelled by the canonical
stable insertion sort.  Every aggregated entry carries its timestamp
field, so the empty-string default of the key lambda never applies. -/
def pySortByTs (l : List AMsg) : List AMsg := l.foldr insertByTs []

/-- First regex of the summary post-processing
(`src/fast_summarizer.py` line 361):
match one markdown link at the head of `rest` (which follows a `[`).
`[^\]]+` and `[^)\s]+` exclude their closing delimiter, so the greedy
matches are exactly the maximal `takeWhile` runs and no backtracking
can succeed; returns the link title, the URL part, and the remaining
text after the closing parenthesis. -/
def tryLink (rest : List Char) : Option (List Char × List Char × List Char) :=
  match rest.takeWhile (fun c => c ≠ ']'),
    rest.drop (rest.takeWhile (fun c => c ≠ ']')).length with
  | t :: ts, ']' :: '(' :: rest2 =>
    match rest2.takeWhile (fun c => c ≠ ')' && !isPySpace c),
      rest2.drop (rest2.takeWhile (fun c => c ≠ ')' && !isPySpace c)).length with
    | u :: us, ')' :: rest3 => some (t :: ts, u :: us, rest3)
    | _, _ => none
  | _, _ => none

/-- Left-to-right scan of `re.sub` for the markdown-link pattern:
at each `[` try the link match; on success emit the `[title](<url>)`
replacement and continue after the match.  The fuel argument only
bounds the recursion depth; every iteration consumes at least one
character, so the fuel `s.length` supplied by the wrapper is never
exhausted. -/
def wrapLinksAux : Nat → List Char → List Char
  | 0, _ => []
  | _, [] => []
  | fuel + 1, '[' :: rest =>
    match tryLink rest with
    | some (t, u, rest3) =>
      '[' :: t ++ ']' :: '(' :: '<' :: u ++ '>' :: ')' :: wrapLinksAux fuel rest3
    | none => '[' :: wrapLinksAux fuel rest
  | fuel + 1, c :: rest => c :: wrapLinksAux fuel rest

/-- Models the first substitution of the post-processing, pattern
`\[([^\]]+)\]\(([^)\s]+)\)` with replacement `[\1](<\2>)`
(`src/fast_summarizer.py` line 361). -/
def wrapLinks (s : List Char) : List Char := wrapLinksAux s.length s

/-- The character class `[^\s<>]` of the bare-URL pattern. -/
def urlChar (c : Char) : Bool := !isPySpace c && c ≠ '<' && c ≠ '>'

/-- Splits the scheme `https?://` at the head of the input (the greedy
optional `s` is decided by the literal `://` that must follow). -/
def schemeSplit : List Char → Option (List Char × List Char)
  | 'h' :: 't' :: 't' :: 'p' :: 's' :: ':' :: '/' :: '/' :: rest =>
      some (['h', 't', 't', 'p', 's', ':', '/', '/'], rest)
  | 'h' :: 't' :: 't' :: 'p' :: ':' :: '/' :: '/' :: rest =>
      some (['h', 't', 't', 'p', ':', '/', '/'], rest)
  | _ => none

/-- Backtracking of the greedy `[^\s<>]+` run against the trailing
`(?![)>])` lookahead, on the reversed run: give back characters until
the character that would follow the match is no longer `)` (run
characters are never `>`); fails if the run would become empty. -/
def shrinkAux : List Char → Option (List Char)
  | [] => none
  | x :: xs =>
    if x ≠ ')' then (if xs.isEmpty then none else some xs.reverse)
    else shrinkAux xs

/-- Match `(https?://[^\s<>]+)(?![)>])` at the head of `s`: scheme,
then the maximal run of URL characters, backtracked just enough to
satisfy the negative lookahead.  Returns the matched text and the
remaining input. -/
def tryUrl (s : List Char) : Option (List Char × List Char) :=
  match schemeSplit s with
  | none => none
  | some (sch, rest) =>
    let r := rest.takeWhile urlChar
    if r.isEmpty then none
    else
      let bad := match (rest.drop r.length).head? with
        | some c => c = ')' || c = '>'
        | none => false
      if bad then
        match shrinkAux r.reverse with
        | none => none
        | some r2 => some (sch ++ r2, rest.drop r2.length)
      else some (sch ++ r, rest.drop r.length)

/-- Left-to-right scan of `re.sub` for the bare-URL pattern with its
negative lookbehind `(?<![<(])`: `prev` is the character preceding the
current position in the original text (after a replacement, the last
character of the matched URL, as the Python lookbehind inspects the
subject string, not the replacement).  Fuel as in `wrapLinksAux`. -/
def wrapBareUrlsAux : Nat → Option Char → List Char → List Char
  | 0, _, _ => []
  | _, _, [] => []
  | fuel + 1, prev, c :: rest =>
    if prev = some '<' || prev = some '(' then
      c :: wrapBareUrlsAux fuel (some c) rest
    else
      match tryUrl (c :: rest) with
      | some (m, rest2) => '<' :: m ++ '>' :: wrapBareUrlsAux fuel m.getLast? rest2
      | none => c :: wrapBareUrlsAux fuel (some c) rest

/-- Models the second substitution of the post-processing, pattern
`(?<![<(])(https?://[^\s<>]+)(?![)>])` with replacement `<\1>`
(`src/fast_summarizer.py` line 363). -/
def wrapBareUrls (s : List Char) : List Char := wrapBareUrlsAux s.length none s

/-- The URL-wrapping post-processing of `generate_summary`
(`src/fast_summarizer.py` lines 361-363): rewrite markdown links to
no-preview form, then wrap bare URLs in angle brackets. -/
def generate_summary_postprocess (content : List Char) : List Char :=
  wrapBareUrls (wrapLinks content)

/-- One aggregated-entry record as built by the per-channel
processing loops (`src/fetcher.py` lines 91-98, `src/fast_summarizer.py`
lines 237-245): channel name, resolved author, optional content, and
the (classified) timestamp. -/
structure AggEntry where
  channel : List Char
  author : List Char
  content : Option (List Char)
  ts : TS
deriving DecidableEq, Repr

/-- Models the author resolution (`src/fetcher.py` line 92): the
global_name field when truthy, else the username field when present,
else the default Unknown. -/
def pickAuthor (gn un : Option (List Char)) : List Char :=
  match gn with
  | some g => if g.isEmpty then un.getD "Unknown".data else g
  | none => un.getD "Unknown".data

/-- Models Python truthiness of the content field: present and
non-empty. -/
def contentTruthy (m : FMsg) : Bool :=
  match m.content with
  | some c => !c.isEmpty
  | none => false

/-- The aggregation loop of `fetch_and_process_channel_data` in
`src/fetcher.py` (lines 85-98): for each channel (name paired with its
fetched in-window messages), count every message into
`total_messages_found` and append an entry for every message — the
content field is copied as-is, with no content filter. -/
def aggregate_strict : List (List Char × List FMsg) → List AggEntry × Nat
  | [] => ([], 0)
  | ch :: rest =>
    let r := aggregate_strict rest
    (ch.2.map (fun m =>
        ⟨ch.1, pickAuthor m.global_name m.username, m.content, m.ts⟩) ++ r.1,
     ch.2.length + r.2)

/-- The aggregation loop of `fetch_and_process_channel_data` in
`src/fast_summarizer.py` (lines 221-245): `total_messages_found` counts
every fetched message (`+= len(messages)` at line 235, before the
content check), while only messages with truthy content become
entries. -/
def aggregate_fast : List (List Char × List FMsg) → List AggEntry × Nat
  | [] => ([], 0)
  | ch :: rest =>
    let r := aggregate_fast rest
    ((ch.2.filter contentTruthy).map (fun m =>
        ⟨ch.1, pickAuthor m.global_name m.username, m.content, m.ts⟩) ++ r.1,
     ch.2.length + r.2)

/-- Joins the channel display names with comma-space separators. -/
def joinCommaSep : List (List Char) → List Char
  | [] => []
  | [x] => x
  | x :: y :: rest => x ++ ',' :: ' ' :: joinCommaSep (y :: rest)

/-- The summary header built by `process_and_summarize`
(`src/main.py` lines 32-33). -/
def build_header (config : List Char) (numChannels totalMsgs : Nat)
    (channelList : List Char) : List Char :=
  "**Aggregated Summary (".data ++ config ++ ") of ".data
    ++ (toString numChannels).data ++ " Channels (".data
    ++ (toString totalMsgs).data ++ " msgs):**\n".data
    ++ channelList ++ "\n\n".data

/-- The fallback header built by `run_fallback`
(`src/main.py` lines 63-64). -/
def build_header_fallback (config : List Char) (numChannels totalMsgs : Nat)
    (channelList : List Char) : List Char :=
  "**Aggregated Summary (".data ++ config ++ ") of ".data
    ++ (toString numChannels).data ++ " Channels (".data
    ++ (toString totalMsgs).data ++ " msgs) (Fallback):**\n".data
    ++ channelList ++ "\n\n".data

/-- The decorative ending block of `process_and_summarize`
(`src/main.py` line 34). -/
def ending_art : List Char :=
  "\n\n\n```\n* . ﹢ ˖ ✦ ¸ . ﹢ ° ¸. ° ˖ ･ ·̩ ｡ ☆ ﾟ ＊ ¸* . ﹢ ˖ ✦ ¸ . ﹢ ° ¸. ° ˖ ･ ·̩ ｡ ☆ ﾟ ＊ ¸* . ﹢ ˖ ✦ ¸ . ﹢ ° ¸. ° ˖ ･ ·̩ ｡ ☆ ﾟ ＊ ¸* . ﹢ ˖ ✦ ¸ . ﹢ ° ¸. ° ˖ ･ ·̩ ｡ ☆ ﾟ ＊ ¸* . ﹢ ˖ ✦ ¸ . ﹢ ° ¸. ° ˖ ･ ·̩ ｡ ☆ ﾟ ＊ ¸* . ﹢ ˖ ✦ ¸ . ﹢ ° ¸. ° ˖ ･ ·̩ ｡ ☆ ﾟ ＊ ¸* . ﹢ ˖ ✦ ¸ . ﹢ ° ¸. ° ˖ ･ ·̩ ｡ ☆ ﾟ ＊\n```".data

/-- The full primary message assembled by `process_and_summarize`
(`src/main.py` line 35): header, stripped summary, ending block. -/
def process_and_summarize_msg (config : List Char)
    (channelNames : List (List Char)) (totalMsgs : Nat)
    (summary : List Char) : List Char :=
  build_header config channelNames.length totalMsgs (joinCommaSep channelNames)
    ++ pyStrip summary ++ ending_art

/-- The full fallback message assembled by `run_fallback`
(`src/main.py` lines 63-66): fallback header plus the summary lines
that are non-blank after stripping, each prefixed with `"> "`. -/
def run_fallback_msg (config : List Char) (channelNames : List (List Char))
    (totalMsgs : Nat) (summary : List Char) : List Char :=
  build_header_fallback config channelNames.length totalMsgs
      (joinCommaSep channelNames)
    ++ joinNL (((splitLines summary).filter
        (fun l => !(pyStrip l).isEmpty)).map (fun l => '>' :: ' ' :: l))

/-- The fragments each transport attempts in one run. -/
structure OrchOutcome where
  primarySent : List (List Char)
  fallbackSent : List (List Char)
deriving DecidableEq, Repr

/-- The send orchestration of `on_ready` (`src/main.py` lines 92-107):
every fragment of the primary message is attempted via the bot
transport (`okF i` tells whether fragment `i` succeeded); if the
success count falls short of the fragment count, `run_fallback` runs,
which sends every fragment of its own, freshly rebuilt fallback message
in order (`src/main.py` lines 67-70).  The 2000-character limit is the default
limit of `split_message`. -/
def on_ready_sends (primaryMsg fallbackMsg : List Char)
    (okF : Nat → Bool) : OrchOutcome :=
  let parts := split_message primaryMsg 2000
  let success := ((List.range parts.length).filter okF).length
  ⟨parts,
    if success = parts.length then [] else split_message fallbackMsg 2000⟩

section FetcherLemmas

/-- On a page without parse failures, the strict per-page pass returns
the in-window messages of the page and flags whether some message is
at or before the cutoff. -/
theorem procPageStrict_no_bad (cutoff : Nat) (page : List FMsg)
    (h : ∀ m ∈ page, m.ts ≠ .bad) :
    procPageStrict cutoff page =
      some (page.filter (inWin cutoff), page.any (pastCutoff cutoff)) := by
  induction page with
  | nil => rfl
  | cons m rest ih =>
    have hm : m.ts ≠ .bad := h m (List.mem_cons_self m rest)
    have hr := ih (fun x hx => h x (List.mem_cons_of_mem m hx))
    cases hts : m.ts with
    | missing =>
      simp [procPageStrict, hts, hr, List.filter_cons, List.any_cons,
        inWin, pastCutoff]
    | bad => exact absurd hts hm
    | ok t =>
      by_cases hlt : cutoff < t
      · have hle : ¬ t ≤ cutoff := by omega
        simp [procPageStrict, hts, hr, hlt, List.filter_cons, List.any_cons,
          inWin, pastCutoff, hle]
      · have hle : t ≤ cutoff := by omega
        simp [procPageStrict, hts, hr, hlt, List.filter_cons, List.any_cons,
          inWin, pastCutoff, hle]

/-- The skip-variant per-page pass computes the same classification on
pages without parse failures. -/
theorem procPageSkip_eq (cutoff : Nat) (page : List FMsg) :
    procPageSkip cutoff page =
      (page.filter (inWin cutoff), page.any (pastCutoff cutoff)) := by
  induction page with
  | nil => rfl
  | cons m rest ih =>
    cases hts : m.ts with
    | missing =>
      simp [procPageSkip, hts, ih, List.filter_cons, List.any_cons,
        inWin, pastCutoff]
    | bad =>
      simp [procPageSkip, hts, ih, List.filter_cons, List.any_cons,
        inWin, pastCutoff]
    | ok t =>
      by_cases hlt : cutoff < t
      · have hle : ¬ t ≤ cutoff := by omega
        simp [procPageSkip, hts, ih, hlt, List.filter_cons, List.any_cons,
          inWin, pastCutoff, hle]
      · have hle : t ≤ cutoff := by omega
        simp [procPageSkip, hts, ih, hlt, List.filter_cons, List.any_cons,
          inWin, pastCutoff, hle]

/-- For a message with a parsed timestamp, `inWin` is the strict
comparison against the cutoff. -/
theorem inWin_eq_of_isOk (cutoff : Nat) (m : FMsg) (h : m.ts.isOk = true) :
    inWin cutoff m = decide (cutoff < tOf m) := by
  cases hts : m.ts with
  | missing => rw [hts] at h; exact absurd h (by simp [TS.isOk])
  | bad => rw [hts] at h; exact absurd h (by simp [TS.isOk])
  | ok t => simp [inWin, tOf, hts]

/-- For a message with a parsed timestamp, `pastCutoff` is the
non-strict comparison against the cutoff. -/
theorem pastCutoff_eq_of_isOk (cutoff : Nat) (m : FMsg) (h : m.ts.isOk = true) :
    pastCutoff cutoff m = decide (tOf m ≤ cutoff) := by
  cases hts : m.ts with
  | missing => rw [hts] at h; exact absurd h (by simp [TS.isOk])
  | bad => rw [hts] at h; exact absurd h (by simp [TS.isOk])
  | ok t => simp [pastCutoff, tOf, hts]

/-- A run of non-empty pages containing no past-cutoff message and no
parse failure is paginated through entirely: each page contributes its
in-window messages and one request, and the loop proceeds to the
remaining responses. -/
theorem fetchLoopStrict_clean_run (cutoff : Nat) (pages1 : List (List FMsg))
    (tail : List PageResp)
    (h : ∀ p ∈ pages1, p ≠ [] ∧ ∀ m ∈ p, m.ts ≠ .bad ∧ pastCutoff cutoff m = false) :
    fetchLoopStrict cutoff (pages1.map some ++ tail)
      = (pages1.flatMap (fun p => p.filter (inWin cutoff))
           ++ (fetchLoopStrict cutoff tail).1,
         (fetchLoopStrict cutoff tail).2 + pages1.length) := by
  induction pages1 with
  | nil => simp
  | cons p ps ih =>
    obtain ⟨hpne, hmsg⟩ := h p (List.mem_cons_self p ps)
    obtain ⟨q, qs, rfl⟩ : ∃ q qs, p = q :: qs := by
      cases p with
      | nil => exact absurd rfl hpne
      | cons q qs => exact ⟨q, qs, rfl⟩
    have hproc := procPageStrict_no_bad cutoff (q :: qs)
      (fun m hm => (hmsg m hm).1)
    have hany : (q :: qs).any (pastCutoff cutoff) = false := by
      rw [List.any_eq_false]
      intro m hm
      simp [(hmsg m hm).2]
    have ihr := ih (fun x hx => h x (List.mem_cons_of_mem _ hx))
    simp only [List.map_cons, List.cons_append, fetchLoopStrict,
      List.isEmpty_cons, hproc, hany, if_false, Bool.false_eq_true,
      List.append_eq, ihr, List.flatMap_cons, Prod.mk.injEq]
    exact ⟨by simp [List.append_assoc], by simp; omega⟩

/-- Claim C2 — pagination request count and content for
`_fetch_messages` (`src/fetcher.py` lines 40-68).  If pages `1..k-1`
are non-empty, free of parse failures and contain no past-cutoff
message, and page `k` is non-empty, parse-clean and contains a
past-cutoff message, then the loop issues exactly `k` requests
(`pages1.length + 1` here) and accumulates exactly the in-window
messages of pages `1..k`; moreover, after the same clean prefix, a
failed request or an empty page also stops the loop at request `k` with
the in-window messages of pages `1..k-1`. -/
theorem claim_C2_pagination (cutoff : Nat) (pages1 : List (List FMsg))
    (pagek : List FMsg) (rest : List PageResp)
    (h1 : ∀ p ∈ pages1, p ≠ [] ∧ ∀ m ∈ p, m.ts ≠ .bad ∧ pastCutoff cutoff m = false)
    (hkne : pagek ≠ [])
    (hknobad : ∀ m ∈ pagek, m.ts ≠ .bad)
    (hkhit : pagek.any (pastCutoff cutoff) = true) :
    fetchLoopStrict cutoff (pages1.map some ++ some pagek :: rest)
      = ((pages1 ++ [pagek]).flatMap (fun p => p.filter (inWin cutoff)),
         pages1.length + 1)
    ∧ fetchLoopStrict cutoff (pages1.map some ++ none :: rest)
      = (pages1.flatMap (fun p => p.filter (inWin cutoff)), pages1.length + 1)
    ∧ fetchLoopStrict cutoff (pages1.map some ++ some [] :: rest)
      = (pages1.flatMap (fun p => p.filter (inWin cutoff)), pages1.length + 1) := by
  obtain ⟨q, qs, rfl⟩ : ∃ q qs, pagek = q :: qs := by
    cases pagek with
    | nil => exact absurd rfl hkne
    | cons q qs => exact ⟨q, qs, rfl⟩
  have hproc := procPageStrict_no_bad cutoff (q :: qs) hknobad
  refine ⟨?_, ?_, ?_⟩
  · rw [fetchLoopStrict_clean_run cutoff pages1 _ h1]
    simp [fetchLoopStrict, hproc, hkhit, Nat.add_comm]
  · rw [fetchLoopStrict_clean_run cutoff pages1 _ h1]
    simp [fetchLoopStrict, Nat.add_comm]
  · rw [fetchLoopStrict_clean_run cutoff pages1 _ h1]
    simp [fetchLoopStrict, Nat.add_comm]

/-- Witness for claim C2 at a concrete input: one clean page of a
message at instant 10, then a page holding instants 6 and 3 with cutoff
5 — two requests, retaining the messages at 10 and 6. -/
theorem claim_C2_pagination_witness :
    ((∀ p ∈ [[(⟨0, .ok 10, none, none, none⟩ : FMsg)]], p ≠ [] ∧
        ∀ m ∈ p, m.ts ≠ .bad ∧ pastCutoff 5 m = false)
      ∧ ([(⟨1, .ok 6, none, none, none⟩ : FMsg), ⟨2, .ok 3, none, none, none⟩] ≠ [])
      ∧ (∀ m ∈ [(⟨1, .ok 6, none, none, none⟩ : FMsg), ⟨2, .ok 3, none, none, none⟩],
          m.ts ≠ .bad)
      ∧ ([(⟨1, .ok 6, none, none, none⟩ : FMsg),
          ⟨2, .ok 3, none, none, none⟩].any (pastCutoff 5) = true))
    ∧ fetchLoopStrict 5
        ([[(⟨0, .ok 10, none, none, none⟩ : FMsg)]].map some ++
          some [(⟨1, .ok 6, none, none, none⟩ : FMsg),
                ⟨2, .ok 3, none, none, none⟩] :: [])
      = ([⟨0, .ok 10, none, none, none⟩, ⟨1, .ok 6, none, none, none⟩], 2) :=
  ⟨⟨by decide, by decide, by decide, by decide⟩, by
    have h := (claim_C2_pagination 5 [[⟨0, .ok 10, none, none, none⟩]]
      [⟨1, .ok 6, none, none, none⟩, ⟨2, .ok 3, none, none, none⟩] []
      (by decide) (by decide) (by decide) (by decide)).1
    rw [h]; decide⟩

/-- Claim C1 — cutoff exactness of `_fetch_messages`
(`src/fetcher.py` lines 35-72).  For a channel history delivered as
non-empty pages, newest to oldest, in which every timestamp parses, a
message appears in the per-channel result iff it is in the history and
its parsed timestamp is strictly after the cutoff; in particular no
message at or before the cutoff ever appears. -/
theorem claim_C1_cutoff_exact (cutoff : Nat) (pages : List (List FMsg))
    (hne : ∀ p ∈ pages, p ≠ [])
    (hok : ∀ m ∈ pages.flatten, m.ts.isOk = true)
    (hsort : List.Pairwise (fun a b => tOf b ≤ tOf a) pages.flatten) :
    ∀ m, m ∈ fetch_messages cutoff (pages.map some ++ [some []])
      ↔ (m ∈ pages.flatten ∧ inWin cutoff m = true) := by
  induction pages with
  | nil =>
    intro m
    simp [fetch_messages, fetchLoopStrict, finalFilter]
  | cons p ps ih =>
    intro m
    have hpne := hne p (List.mem_cons_self p ps)
    obtain ⟨q, qs, rfl⟩ : ∃ q qs, p = q :: qs := by
      cases p with
      | nil => exact absurd rfl hpne
      | cons q qs => exact ⟨q, qs, rfl⟩
    have hflat : ((q :: qs) :: ps).flatten = (q :: qs) ++ ps.flatten :=
      List.flatten_cons ..
    rw [hflat] at hok hsort
    have hnobad : ∀ x ∈ q :: qs, x.ts ≠ .bad := by
      intro x hx hbad
      have := hok x (List.mem_append_left _ hx)
      rw [hbad] at this
      exact absurd this (by simp [TS.isOk])
    have hproc := procPageStrict_no_bad cutoff (q :: qs) hnobad
    rw [List.pairwise_append] at hsort
    obtain ⟨hs1, hs2, hcross⟩ := hsort
    cases hany : (q :: qs).any (pastCutoff cutoff) with
    | true =>
      -- the page hit the cutoff: pagination stops here, and by
      -- sortedness no in-window message exists in the older pages
      obtain ⟨y, hy, hypast⟩ := List.any_eq_true.1 hany
      have hyok : y.ts.isOk = true := hok y (List.mem_append_left _ hy)
      have hyle : tOf y ≤ cutoff := by
        rw [pastCutoff_eq_of_isOk cutoff y hyok] at hypast
        exact of_decide_eq_true hypast
      have hrestout : ∀ x ∈ ps.flatten, inWin cutoff x = false := by
        intro x hx
        have hxok : x.ts.isOk = true := hok x (List.mem_append_right _ hx)
        rw [inWin_eq_of_isOk cutoff x hxok]
        have : tOf x ≤ tOf y := hcross y hy x hx
        simp; omega
      have hloop : fetchLoopStrict cutoff (((q :: qs) :: ps).map some ++ [some []])
          = ((q :: qs).filter (inWin cutoff), 1) := by
        simp [fetchLoopStrict, hproc, hany]
      rw [fetch_messages, hloop]
      simp only [finalFilter, List.filter_filter, Bool.and_self, hflat,
        List.mem_filter, List.mem_append]
      constructor
      · rintro ⟨hmem, hwin⟩
        exact ⟨Or.inl hmem, hwin⟩
      · rintro ⟨hmem | hmem, hwin⟩
        · exact ⟨hmem, hwin⟩
        · rw [hrestout m hmem] at hwin
          exact absurd hwin (by simp)
    | false =>
      have hloop : fetchLoopStrict cutoff (((q :: qs) :: ps).map some ++ [some []])
          = ((q :: qs).filter (inWin cutoff)
               ++ (fetchLoopStrict cutoff (ps.map some ++ [some []])).1,
             (fetchLoopStrict cutoff (ps.map some ++ [some []])).2 + 1) := by
        simp [fetchLoopStrict, hproc, hany]
      have ihm := ih (fun x hx => hne x (List.mem_cons_of_mem _ hx))
        (fun x hx => hok x (List.mem_append_right _ hx)) hs2 m
      rw [fetch_messages, hloop]
      simp only [finalFilter, List.filter_append, List.filter_filter,
        Bool.and_self, List.mem_append, List.mem_filter, hflat]
      rw [fetch_messages, finalFilter, List.mem_filter] at ihm
      rw [ihm]
      tauto

/-- Witness for claim C1 at a concrete input: two one-message pages at
instants 10 and 5 with cutoff 7 — the message at 10 is returned, the
message at 5 is not. -/
theorem claim_C1_cutoff_exact_witness :
    ((∀ p ∈ [[(⟨0, .ok 10, none, none, none⟩ : FMsg)],
              [⟨1, .ok 5, none, none, none⟩]], p ≠ [])
      ∧ (∀ m ∈ [[(⟨0, .ok 10, none, none, none⟩ : FMsg)],
                 [⟨1, .ok 5, none, none, none⟩]].flatten, m.ts.isOk = true)
      ∧ List.Pairwise (fun a b => tOf b ≤ tOf a)
          [[(⟨0, .ok 10, none, none, none⟩ : FMsg)],
           [⟨1, .ok 5, none, none, none⟩]].flatten)
    ∧ ((⟨0, .ok 10, none, none, none⟩ : FMsg) ∈
        fetch_messages 7 ([[(⟨0, .ok 10, none, none, none⟩ : FMsg)],
          [⟨1, .ok 5, none, none, none⟩]].map some ++ [some []])
      ↔ ((⟨0, .ok 10, none, none, none⟩ : FMsg) ∈
          [[(⟨0, .ok 10, none, none, none⟩ : FMsg)],
           [⟨1, .ok 5, none, none, none⟩]].flatten
        ∧ inWin 7 (⟨0, .ok 10, none, none, none⟩ : FMsg) = true)) :=
  ⟨⟨by decide, by decide, by decide⟩,
    claim_C1_cutoff_exact 7
      [[⟨0, .ok 10, none, none, none⟩], [⟨1, .ok 5, none, none, none⟩]]
      (by decide) (by decide) (by decide) _⟩

/-- Inserting a message with an unparseable timestamp anywhere in a page
does not change the skip-variant page classification
(`src/fast_summarizer.py` lines 158-170). -/
theorem procPageSkip_bad_erased (cutoff : Nat) (pre post : List FMsg) (b : FMsg)
    (hb : b.ts = .bad) :
    procPageSkip cutoff (pre ++ b :: post) = procPageSkip cutoff (pre ++ post) := by
  induction pre with
  | nil => simp [procPageSkip, hb]
  | cons m pre ih =>
    simp only [List.cons_append, procPageSkip, List.append_eq]
    rw [ih]

/-- Claim C6 (amended) — in `_fetch_messages_internal`
(`src/fast_summarizer.py` lines 139-183) a message whose timestamp
fails to parse is skipped in isolation: the fetch behaves exactly as if
that message were absent from its page — the other messages of that
page are classified and retained, pagination continues, and earlier accumulation
is kept.  (The claim is false of `_fetch_messages` in `src/fetcher.py`,
whose bare `except` aborts the page; see the counterexample.) -/
theorem claim_C6_parse_isolated (cutoff : Nat) (pre post : List FMsg) (b : FMsg)
    (rest : List PageResp)
    (hb : b.ts = .bad)
    (hne : pre ++ post ≠ []) :
    fetchLoopSkip cutoff (some (pre ++ b :: post) :: rest)
      = fetchLoopSkip cutoff (some (pre ++ post) :: rest)
    ∧ fetch_messages_internal cutoff (some (pre ++ b :: post) :: rest)
      = fetch_messages_internal cutoff (some (pre ++ post) :: rest) := by
  have hproc := procPageSkip_bad_erased cutoff pre post b hb
  have hne1 : (pre ++ b :: post).isEmpty = false := by
    cases pre <;> simp
  have hne2 : (pre ++ post).isEmpty = false := by
    cases hpp : pre ++ post with
    | nil => exact absurd hpp hne
    | cons x xs => simp
  have hloop : fetchLoopSkip cutoff (some (pre ++ b :: post) :: rest)
      = fetchLoopSkip cutoff (some (pre ++ post) :: rest) := by
    simp only [fetchLoopSkip, hne1, hne2, hproc, Bool.false_eq_true, if_false]
  exact ⟨hloop, by rw [fetch_messages_internal, fetch_messages_internal, hloop]⟩

/-- Witness for claim C6 at a concrete input: a page holding an
in-window message and a message with an unparseable timestamp is
fetched exactly like the page with the bad message removed. -/
theorem claim_C6_parse_isolated_witness :
    (((⟨1, .bad, none, none, none⟩ : FMsg).ts = .bad)
      ∧ ([(⟨0, .ok 10, none, none, none⟩ : FMsg)] ++ [] ≠ []))
    ∧ fetch_messages_internal 5
        (some ([(⟨0, .ok 10, none, none, none⟩ : FMsg)] ++
          (⟨1, .bad, none, none, none⟩ : FMsg) :: []) :: [some []])
      = fetch_messages_internal 5
          (some ([(⟨0, .ok 10, none, none, none⟩ : FMsg)] ++ []) :: [some []]) :=
  ⟨⟨by decide, by decide⟩,
    (claim_C6_parse_isolated 5 [⟨0, .ok 10, none, none, none⟩] []
      ⟨1, .bad, none, none, none⟩ [some []] (by decide) (by decide)).2⟩

/-- Counterexample to claim C6 as stated: in `_fetch_messages`
(`src/fetcher.py` lines 44-68) a single unparseable timestamp aborts
the whole page — the in-window message at instant 10 sharing the page
is dropped, although the claim says it is retained.  The skip variant
retains it. -/
theorem claim_C6_counterexample :
    fetch_messages 5
        [some [(⟨0, .ok 10, none, none, none⟩ : FMsg),
               ⟨1, .bad, none, none, none⟩], some []] = []
    ∧ fetch_messages_internal 5
        [some [(⟨0, .ok 10, none, none, none⟩ : FMsg),
               ⟨1, .bad, none, none, none⟩], some []]
      = [⟨0, .ok 10, none, none, none⟩]
    ∧ inWin 5 (⟨0, .ok 10, none, none, none⟩ : FMsg) = true := by
  decide

end FetcherLemmas

section ChunkerLemmas

/-- Removing trailing whitespace never lengthens a list. -/
theorem rstrip_length_le (l : List Char) : (rstrip l).length ≤ l.length := by
  have h := (List.dropWhile_sublist (l := l.reverse) isPySpace).length_le
  simpa [rstrip] using h

/-- If the last character is whitespace, `rstrip` strictly shortens. -/
theorem rstrip_length_lt (l : List Char) (c : Char)
    (hlast : l.getLast? = some c) (hsp : isPySpace c = true) :
    (rstrip l).length + 1 ≤ l.length := by
  rw [List.getLast?_eq_head?_reverse] at hlast
  obtain ⟨t, ht⟩ : ∃ t, l.reverse = c :: t := by
    cases hr : l.reverse with
    | nil => rw [hr] at hlast; exact absurd hlast (by simp)
    | cons x xs =>
      rw [hr] at hlast
      simp at hlast
      exact ⟨xs, by rw [hlast]⟩
  have hlen : l.length = t.length + 1 := by
    have := congrArg List.length ht
    simpa using this
  have hdrop : (List.dropWhile isPySpace l.reverse).length ≤ t.length := by
    rw [ht, List.dropWhile_cons, if_pos hsp]
    exact (List.dropWhile_sublist isPySpace).length_le
  simp only [rstrip, List.length_reverse]
  omega

/-- Every hard-split window has at most `n` characters. -/
theorem chunks_length_le (n : Nat) (l : List Char) :
    ∀ c ∈ chunks n l, c.length ≤ n := by
  by_cases h : n = 0 ∨ l = []
  · rw [chunks, dif_pos h]; simp
  · rw [chunks, dif_neg h]
    intro c hc
    rcases List.mem_cons.1 hc with rfl | hc
    · exact List.length_take_le n l
    · exact chunks_length_le n (l.drop n) c hc
termination_by l.length
decreasing_by
  push_neg at h
  obtain ⟨hn, hl⟩ := h
  have : 0 < l.length := List.length_pos.2 hl
  simp only [List.length_drop]
  omega

/-- Invariant of the `split_message` loop: accumulated parts fit the
limit, and the current fragment is empty or ends in the newline just
appended and exceeds the limit by at most that newline. -/
def smInv (L : Nat) (st : SMState) : Prop :=
  (∀ p ∈ st.parts, p.length ≤ L) ∧
  (st.current = [] ∨
    (st.current.length ≤ L + 1 ∧ st.current.getLast? = some '\n'))

/-- A fragment flushed from an invariant-satisfying state fits the
limit. -/
theorem flush_length_le (L : Nat) (cur : List Char)
    (h : cur = [] ∨ (cur.length ≤ L + 1 ∧ cur.getLast? = some '\n')) :
    (rstrip cur).length ≤ L := by
  rcases h with rfl | ⟨hlen, hlast⟩
  · simpa [rstrip] using Nat.zero_le L
  · have := rstrip_length_lt cur '\n' hlast (by decide)
    omega

/-- One loop iteration preserves the invariant. -/
theorem smStep_inv (L : Nat) (st : SMState) (line : List Char)
    (h : smInv L st) : smInv L (smStep L st line) := by
  obtain ⟨hparts, hcur⟩ := h
  have hflush : ∀ p ∈ (if st.current.isEmpty then st.parts
      else st.parts ++ [rstrip st.current]), p.length ≤ L := by
    by_cases he : st.current.isEmpty
    · rw [if_pos he]; exact hparts
    · rw [if_neg he]
      intro p hp
      rcases List.mem_append.1 hp with hp | hp
      · exact hparts p hp
      · rw [List.mem_singleton.1 hp]
        exact flush_length_le L st.current hcur
  rw [smStep]
  by_cases hov : st.current.length + line.length + 1 > L
  · rw [if_pos hov]
    by_cases hlong : line.length > L
    · rw [if_pos hlong]
      refine ⟨?_, Or.inl rfl⟩
      intro p hp
      rcases List.mem_append.1 hp with hp | hp
      · exact hflush p hp
      · exact chunks_length_le L line p hp
    · rw [if_neg hlong]
      refine ⟨hflush, Or.inr ⟨?_, List.getLast?_concat line⟩⟩
      simp
      omega
  · rw [if_neg hov]
    refine ⟨hparts, Or.inr ⟨?_, ?_⟩⟩
    · simp
      omega
    · exact List.getLast?_concat _

/-- The invariant holds after the whole loop. -/
theorem smFold_inv (L : Nat) (lines : List (List Char)) (st : SMState)
    (h : smInv L st) : smInv L (lines.foldl (smStep L) st) := by
  induction lines generalizing st with
  | nil => exact h
  | cons l ls ih => exact ih (smStep L st l) (smStep_inv L st l h)

end ChunkerLemmas

section WhitespaceLemmas

/-- Applying `rstrip` to an all-whitespace list yields the empty
list. -/
theorem rstrip_all_space (l : List Char) (h : ∀ c ∈ l, isPySpace c = true) :
    rstrip l = [] := by
  have : List.dropWhile isPySpace l.reverse = [] :=
    List.dropWhile_eq_nil_iff.2 (fun x hx => h x (List.mem_reverse.1 hx))
  simp [rstrip, this]

/-- The function `splitLines` always yields at least one line. -/
theorem splitLines_ne_nil (s : List Char) : splitLines s ≠ [] := by
  cases s with
  | nil => simp [splitLines]
  | cons c rest =>
    rw [splitLines]
    cases splitLines rest with
    | nil => simp
    | cons l ls => by_cases hc : c = '\n' <;> simp [hc]

/-- Unfolding equation for `splitLines` on a cons, given the split of
the tail. -/
theorem splitLines_cons_of_eq (x : Char) (rest : List Char)
    (l0 : List Char) (ls : List (List Char)) (h : splitLines rest = l0 :: ls) :
    splitLines (x :: rest)
      = if x = '\n' then [] :: l0 :: ls else (x :: l0) :: ls := by
  rw [splitLines, h]

/-- Every character of every line comes from the split string. -/
theorem splitLines_chars_subset (s : List Char) :
    ∀ l ∈ splitLines s, ∀ c ∈ l, c ∈ s := by
  induction s with
  | nil =>
    intro l hl c hc
    simp [splitLines] at hl
    subst hl
    exact absurd hc (by simp)
  | cons x rest ih =>
    intro l hl c hc
    cases hsl : splitLines rest with
    | nil => exact absurd hsl (splitLines_ne_nil rest)
    | cons l0 ls =>
      rw [splitLines_cons_of_eq x rest l0 ls hsl] at hl
      by_cases hx : x = '\n'
      · rw [if_pos hx] at hl
        rcases List.mem_cons.1 hl with rfl | hl
        · exact absurd hc (by simp)
        · exact List.mem_cons_of_mem x (ih l (by rw [hsl]; exact hl) c hc)
      · rw [if_neg hx] at hl
        rcases List.mem_cons.1 hl with rfl | hl
        · rcases List.mem_cons.1 hc with rfl | hc
          · exact List.mem_cons_self ..
          · exact List.mem_cons_of_mem x
              (ih l0 (by rw [hsl]; exact List.mem_cons_self ..) c hc)
        · exact List.mem_cons_of_mem x
            (ih l (by rw [hsl]; exact List.mem_cons_of_mem l0 hl) c hc)

/-- On all-whitespace input whose lines fit the limit, the loop keeps
every accumulated part empty and the current fragment all-whitespace. -/
theorem smFold_space (L : Nat) (lines : List (List Char))
    (hl : ∀ l ∈ lines, (∀ c ∈ l, isPySpace c = true) ∧ l.length ≤ L) :
    ∀ st, (∀ q ∈ st.parts, q = []) → (∀ c ∈ st.current, isPySpace c = true) →
    (∀ q ∈ (lines.foldl (smStep L) st).parts, q = []) ∧
    (∀ c ∈ (lines.foldl (smStep L) st).current, isPySpace c = true) := by
  induction lines with
  | nil => exact fun st hp hc => ⟨hp, hc⟩
  | cons l ls ih =>
    intro st hp hc
    obtain ⟨hlsp, hlle⟩ := hl l (List.mem_cons_self ..)
    rw [List.foldl_cons]
    refine ih (fun x hx => (hl x (List.mem_cons_of_mem l hx)))
      (smStep L st l) ?_ ?_
    · intro q hq
      rw [smStep] at hq
      by_cases hov : st.current.length + l.length + 1 > L
      · rw [if_pos hov] at hq
        have hlong : ¬ l.length > L := by omega
        rw [if_neg hlong] at hq
        simp only at hq
        by_cases he : st.current.isEmpty
        · rw [if_pos he] at hq
          exact hp q hq
        · rw [if_neg he] at hq
          rcases List.mem_append.1 hq with hq | hq
          · exact hp q hq
          · rw [List.mem_singleton.1 hq]
            exact rstrip_all_space st.current hc
      · rw [if_neg hov] at hq
        exact hp q hq
    · intro c hcm
      rw [smStep] at hcm
      by_cases hov : st.current.length + l.length + 1 > L
      · rw [if_pos hov] at hcm
        have hlong : ¬ l.length > L := by omega
        rw [if_neg hlong] at hcm
        simp only at hcm
        rcases List.mem_append.1 hcm with hcm | hcm
        · exact hlsp c hcm
        · rw [List.mem_singleton.1 hcm]; rfl
      · rw [if_neg hov] at hcm
        simp only at hcm
        rcases List.mem_append.1 hcm with hcm | hcm
        · rcases List.mem_append.1 hcm with hcm | hcm
          · exact hc c hcm
          · exact hlsp c hcm
        · rw [List.mem_singleton.1 hcm]; rfl

end WhitespaceLemmas

/-- Claim C9 (amended) — whitespace-only inputs: if every character of
`s` is whitespace and every line fits the limit, `split_message`
returns `[s]` when the whole input fits (the early return at
`src/utils.py` lines 2-3 — in particular `[""]`, not `[]`, on the empty
string), and the empty sequence otherwise. -/
theorem claim_C9_whitespace (s : List Char) (L : Nat)
    (hs : ∀ c ∈ s, isPySpace c = true)
    (hlines : ∀ l ∈ splitLines s, l.length ≤ L) :
    split_message s L = if s.length ≤ L then [s] else [] := by
  rw [split_message]
  by_cases hfit : s.length ≤ L
  · rw [if_pos hfit, if_pos hfit]
  · rw [if_neg hfit, if_neg hfit]
    have hfold := smFold_space L (splitLines s)
      (fun l hl => ⟨fun c hc => hs c (splitLines_chars_subset s l hl c hc),
        hlines l hl⟩)
      ⟨[], []⟩ (by simp) (by simp)
    set st := (splitLines s).foldl (smStep L) ⟨[], []⟩ with hst
    obtain ⟨hparts, hcur⟩ := hfold
    rw [List.filter_eq_nil_iff]
    intro a ha
    have ha2 : a = [] := by
      by_cases he : st.current.isEmpty
      · rw [if_pos he] at ha
        exact hparts a ha
      · rw [if_neg he] at ha
        rcases List.mem_append.1 ha with ha | ha
        · exact hparts a ha
        · rw [List.mem_singleton.1 ha]
          exact rstrip_all_space st.current hcur
    rw [ha2]
    simp

/-- Witness for claim C9 at a concrete input: a five-character
whitespace-only string with limit 2 splits to the empty sequence. -/
theorem claim_C9_whitespace_witness :
    split_message (' ' :: '\n' :: ' ' :: '\n' :: ' ' :: []) 2 = [] :=
  (claim_C9_whitespace (' ' :: '\n' :: ' ' :: '\n' :: ' ' :: []) 2
    (by decide) (by decide)).trans (by decide)

/-- Counterexample to claim C9 as stated: the empty string and a
single-space string are whitespace-only, yet `split_message` returns
the one-element sequence holding them (the `len(message) <= max_length`
early return), not the empty sequence. -/
theorem claim_C9_counterexample :
    split_message ([] : List Char) 2000 = [[]]
    ∧ split_message [' '] 2000 = [[' ']]
    ∧ ([[]] : List (List Char)) ≠ [] := by
  decide

section RoundTripLemmas

/-- A non-empty list has a last element. -/
theorem getLast?_some_of_ne_nil (l : List Char) (h : l ≠ []) :
    ∃ c, l.getLast? = some c := by
  cases hg : l.getLast? with
  | none => exact absurd (List.getLast?_eq_none_iff.1 hg) h
  | some c => exact ⟨c, rfl⟩

/-- Appending one fragment extends the newline join by a newline and
that fragment. -/
theorem joinNL_concat_ne (xs : List (List Char)) (a : List Char)
    (h : xs ≠ []) : joinNL (xs ++ [a]) = joinNL xs ++ '\n' :: a := by
  induction xs with
  | nil => exact absurd rfl h
  | cons x xs ih =>
    cases xs with
    | nil => simp [joinNL]
    | cons y ys =>
      have ih2 := ih (by simp)
      simp only [List.cons_append, List.append_eq, joinNL] at *
      rw [ih2]
      simp

/-- Growing the last fragment grows the newline join in place. -/
theorem joinNL_last_append (xs : List (List Char)) (a b : List Char) :
    joinNL (xs ++ [a ++ b]) = joinNL (xs ++ [a]) ++ b := by
  cases xs with
  | nil => simp [joinNL]
  | cons x xs =>
    rw [joinNL_concat_ne _ _ (by simp), joinNL_concat_ne _ _ (by simp)]
    simp

/-- The newline join of a non-empty line list, flattened form. -/
theorem joinNL_cons_eq (l : List Char) (ls : List (List Char)) :
    joinNL (l :: ls) = l ++ ls.flatMap (fun x => '\n' :: x) := by
  induction ls generalizing l with
  | nil => simp [joinNL]
  | cons y ys ih =>
    rw [joinNL, ih y, List.flatMap_cons]
    simp

/-- Joining the split lines with newlines restores the string. -/
theorem joinNL_splitLines (s : List Char) : joinNL (splitLines s) = s := by
  induction s with
  | nil => rfl
  | cons c rest ih =>
    cases hsl : splitLines rest with
    | nil => exact absurd hsl (splitLines_ne_nil rest)
    | cons l ls =>
      rw [hsl] at ih
      rw [splitLines_cons_of_eq c rest l ls hsl]
      by_cases hc : c = '\n'
      · subst hc
        rw [if_pos rfl, joinNL, ih]
        rfl
      · rw [if_neg hc]
        cases ls with
        | nil =>
          rw [joinNL] at ih
          rw [joinNL, ih]
        | cons y ys =>
          rw [joinNL, List.cons_append]
          rw [joinNL] at ih
          rw [ih]

/-- Flushing a fragment that ends in a single appended newline after a
non-whitespace character strips exactly that newline. -/
theorem rstrip_body_nl (body : List Char) (hb : body ≠ [])
    (hns : lastNotSpace body = true) :
    rstrip (body ++ ['\n']) = body := by
  obtain ⟨c, hc⟩ := getLast?_some_of_ne_nil body hb
  have hcns : isPySpace c = false := by
    rw [lastNotSpace, hc] at hns
    simpa using hns
  obtain ⟨t, ht⟩ : ∃ t, body.reverse = c :: t := by
    cases hr : body.reverse with
    | nil =>
      have := List.head?_reverse body
      rw [hr, hc] at this
      exact absurd this (by simp)
    | cons x xs =>
      have := List.head?_reverse body
      rw [hr, hc] at this
      simp only [List.head?_cons, Option.some.injEq] at this
      exact ⟨xs, by rw [this]⟩
  have hrev : (body ++ ['\n']).reverse = '\n' :: c :: t := by
    rw [List.reverse_append, ht]
    rfl
  rw [rstrip, hrev, List.dropWhile_cons, if_pos (by decide),
    List.dropWhile_cons, if_neg (by simp [hcns])]
  rw [← ht, List.reverse_reverse]

/-- The last character of an extended list is that of its non-empty
suffix. -/
theorem lastNotSpace_append (xs l : List Char) (h : l ≠ []) :
    lastNotSpace (xs ++ l) = lastNotSpace l := by
  obtain ⟨c, hc⟩ := getLast?_some_of_ne_nil l h
  rw [lastNotSpace, lastNotSpace, List.getLast?_append, hc]
  rfl

/-- In the no-overflow branch the loop appends the line and a newline
to the current fragment. -/
theorem smStep_fits (L : Nat) (parts : List (List Char)) (cur l : List Char)
    (hov : ¬ cur.length + l.length + 1 > L) :
    smStep L ⟨parts, cur⟩ l = ⟨parts, cur ++ l ++ ['\n']⟩ := by
  simp only [smStep, if_neg hov]

/-- In the overflow branch with a non-empty current fragment and a line
within the limit, the loop flushes the trimmed fragment and restarts
from the line. -/
theorem smStep_overflow (L : Nat) (parts : List (List Char)) (cur l : List Char)
    (hcur : cur.isEmpty = false)
    (hov : cur.length + l.length + 1 > L) (hle : ¬ l.length > L) :
    smStep L ⟨parts, cur⟩ l = ⟨parts ++ [rstrip cur], l ++ ['\n']⟩ := by
  simp only [smStep, if_pos hov, if_neg hle, hcur, Bool.false_eq_true,
    if_false]

/-- The first loop iteration, from the empty state, starts the current
fragment with the first line whenever that line fits the limit. -/
theorem smStep_init (L : Nat) (l : List Char) (hle : ¬ l.length > L) :
    smStep L ⟨[], []⟩ l = ⟨[], l ++ ['\n']⟩ := by
  by_cases hov : ([] : List Char).length + l.length + 1 > L
  · simp only [smStep, if_pos hov, if_neg hle, List.isEmpty_nil, if_true]
  · simp only [smStep, if_neg hov, List.nil_append]

/-- Main loop invariant for the lossless case: over lines that are
non-empty, within the limit, and free of trailing whitespace, the loop
state always holds a current fragment `body ++ ['\n']` and its flushed
parts joined with the current body reproduce the processed input. -/
theorem smLoop_join (L : Nat) (rest : List (List Char)) :
    ∀ (parts : List (List Char)) (body : List Char),
    (∀ l ∈ rest, goodLine L l) →
    body ≠ [] →
    lastNotSpace body = true →
    (∀ q ∈ parts, q ≠ []) →
    ∃ parts2 body2,
      rest.foldl (smStep L) ⟨parts, body ++ ['\n']⟩ = ⟨parts2, body2 ++ ['\n']⟩
      ∧ body2 ≠ []
      ∧ lastNotSpace body2 = true
      ∧ (∀ q ∈ parts2, q ≠ [])
      ∧ joinNL (parts2 ++ [body2])
          = joinNL (parts ++ [body]) ++ rest.flatMap (fun l => '\n' :: l) := by
  induction rest with
  | nil =>
    intro parts body _ hb hl hp
    exact ⟨parts, body, rfl, hb, hl, hp, by simp⟩
  | cons l rest ih =>
    intro parts body hg hb hl hp
    obtain ⟨hlne, hlle, hlns⟩ := hg l (List.mem_cons_self ..)
    have hrest : ∀ x ∈ rest, goodLine L x :=
      fun x hx => hg x (List.mem_cons_of_mem l hx)
    rw [List.foldl_cons]
    by_cases hov : (body ++ ['\n']).length + l.length + 1 > L
    · have hstep : smStep L ⟨parts, body ++ ['\n']⟩ l
          = ⟨parts ++ [body], l ++ ['\n']⟩ := by
        have hne : (body ++ ['\n']).isEmpty = false := by
          cases body <;> rfl
        rw [smStep_overflow L parts (body ++ ['\n']) l hne hov (by omega),
          rstrip_body_nl body hb hl]
      rw [hstep]
      obtain ⟨p2, b2, heq, hb2, hl2, hp2, hj⟩ :=
        ih (parts ++ [body]) l hrest hlne hlns
          (by
            intro q hq
            rcases List.mem_append.1 hq with hq | hq
            · exact hp q hq
            · rw [List.mem_singleton.1 hq]; exact hb)
      refine ⟨p2, b2, heq, hb2, hl2, hp2, ?_⟩
      rw [hj, joinNL_concat_ne (parts ++ [body]) l (by simp),
        List.flatMap_cons]
      simp
    · have hstep : smStep L ⟨parts, body ++ ['\n']⟩ l
          = ⟨parts, (body ++ '\n' :: l) ++ ['\n']⟩ := by
        rw [smStep_fits L parts (body ++ ['\n']) l hov]
        simp [List.append_assoc]
      rw [hstep]
      obtain ⟨p2, b2, heq, hb2, hl2, hp2, hj⟩ :=
        ih parts (body ++ '\n' :: l) hrest (by simp)
          (by rw [lastNotSpace_append body ('\n' :: l) (by simp)]
              rw [show ('\n' :: l) = ['\n'] ++ l by rfl,
                lastNotSpace_append ['\n'] l hlne]
              exact hlns)
          hp
      refine ⟨p2, b2, heq, hb2, hl2, hp2, ?_⟩
      rw [hj, show body ++ '\n' :: l = body ++ ('\n' :: l) by rfl,
        joinNL_last_append parts body ('\n' :: l), List.flatMap_cons]
      simp

/-- A list of non-empty fragments passes the final empty-part filter
unchanged. -/
theorem filter_nonempty_id (ps : List (List Char)) (h : ∀ q ∈ ps, q ≠ []) :
    ps.filter (fun p => !p.isEmpty) = ps := by
  rw [List.filter_eq_self]
  intro a ha
  simpa [List.isEmpty_iff] using h a ha

end RoundTripLemmas

/-- Claim C3 (amended) — lossless chunker round-trip: when every line of
`s` is non-empty, has no trailing whitespace, and fits within
`max_length`, joining the fragments of `split_message` with a newline
reconstructs `s` exactly.  (As stated over all strings the claim fails:
whitespace-only lines are dropped and over-long lines gain newlines at
hard-split boundaries; see the counterexample.) -/
theorem claim_C3_roundtrip (s : List Char) (L : Nat)
    (h : ∀ l ∈ splitLines s, goodLine L l) :
    joinNL (split_message s L) = s := by
  by_cases hfit : s.length ≤ L
  · rw [split_message, if_pos hfit, joinNL]
  · cases hsl : splitLines s with
    | nil => exact absurd hsl (splitLines_ne_nil s)
    | cons l0 rest =>
      have hg0 : goodLine L l0 := h l0 (by rw [hsl]; exact List.mem_cons_self ..)
      obtain ⟨h0ne, h0le, h0ns⟩ := hg0
      have hrest : ∀ x ∈ rest, goodLine L x :=
        fun x hx => h x (by rw [hsl]; exact List.mem_cons_of_mem l0 hx)
      obtain ⟨p2, b2, heq, hb2, hl2, hp2, hj⟩ :=
        smLoop_join L rest [] l0 hrest h0ne h0ns (by simp)
      have hfold : (splitLines s).foldl (smStep L) ⟨[], []⟩
          = ⟨p2, b2 ++ ['\n']⟩ := by
        rw [hsl, List.foldl_cons, smStep_init L l0 (by omega), heq]
      have hcur : (b2 ++ ['\n']).isEmpty = false := by
        cases b2 <;> rfl
      rw [split_message, if_neg hfit]
      simp only [hfold, hcur, Bool.false_eq_true, if_false]
      rw [rstrip_body_nl b2 hb2 hl2]
      rw [filter_nonempty_id (p2 ++ [b2])
        (by
          intro q hq
          rcases List.mem_append.1 hq with hq | hq
          · exact hp2 q hq
          · rw [List.mem_singleton.1 hq]; exact hb2)]
      rw [hj]
      have hjoin := joinNL_cons_eq l0 rest
      have hemp : joinNL ([] ++ [l0]) = joinNL ([] : List (List Char)) ++ l0 := by
        simp [joinNL]
      rw [hemp]
      simp only [joinNL, List.nil_append]
      rw [← hjoin, ← hsl, joinNL_splitLines]

/-- Witness for claim C3 at a concrete input: `"abc\ndef"` at limit 4
splits into `["abc", "def"]`, which joins back to the original. -/
theorem claim_C3_roundtrip_witness :
    joinNL (split_message ('a' :: 'b' :: 'c' :: '\n' :: 'd' :: 'e' :: 'f' :: []) 4)
      = ('a' :: 'b' :: 'c' :: '\n' :: 'd' :: 'e' :: 'f' :: []) :=
  claim_C3_roundtrip ('a' :: 'b' :: 'c' :: '\n' :: 'd' :: 'e' :: 'f' :: []) 4
    (by decide)

/-- Counterexample to claim C3 as stated: for `s = "aaa\n\nbbb"` and
`max_length = 4` the fragments are `["aaa", "bbb"]`, whose newline join
`"aaa\nbbb"` has lost the blank line — it is not `s` up to per-line
trailing-whitespace trimming (the line counts differ), nor equal to `s`
with every line individually right-trimmed. -/
theorem claim_C3_counterexample :
    split_message ('a' :: 'a' :: 'a' :: '\n' :: '\n' :: 'b' :: 'b' :: 'b' :: []) 4
      = [['a', 'a', 'a'], ['b', 'b', 'b']]
    ∧ trimPerLineEquiv ('a' :: 'a' :: 'a' :: '\n' :: '\n' :: 'b' :: 'b' :: 'b' :: [])
        (joinNL (split_message
          ('a' :: 'a' :: 'a' :: '\n' :: '\n' :: 'b' :: 'b' :: 'b' :: []) 4)) = false
    ∧ joinNL (split_message
        ('a' :: 'a' :: 'a' :: '\n' :: '\n' :: 'b' :: 'b' :: 'b' :: []) 4)
      ≠ joinNL ((splitLines
          ('a' :: 'a' :: 'a' :: '\n' :: '\n' :: 'b' :: 'b' :: 'b' :: [])).map rstrip) := by
  decide

/-- Claim C8 — fragment length bound for `split_message`
(`src/utils.py` lines 1-25): for `max_length ≥ 1`, every returned
fragment, including the windows of a hard-split over-long line, has at
most `max_length` characters. -/
theorem claim_C8_fragment_bound (s : List Char) (L : Nat) (hL : 1 ≤ L) :
    ∀ p ∈ split_message s L, p.length ≤ L := by
  intro p hp
  rw [split_message] at hp
  by_cases hfit : s.length ≤ L
  · rw [if_pos hfit] at hp
    rw [List.mem_singleton.1 hp]
    exact hfit
  · rw [if_neg hfit] at hp
    have hinv := smFold_inv L (splitLines s) ⟨[], []⟩ ⟨by simp, Or.inl rfl⟩
    set st := (splitLines s).foldl (smStep L) ⟨[], []⟩ with hst
    obtain ⟨hparts, hcur⟩ := hinv
    have hp2 := List.mem_filter.1 hp
    rcases hp2 with ⟨hp2, -⟩
    by_cases he : st.current.isEmpty
    · rw [if_pos he] at hp2
      exact hparts p hp2
    · rw [if_neg he] at hp2
      rcases List.mem_append.1 hp2 with hp3 | hp3
      · exact hparts p hp3
      · rw [List.mem_singleton.1 hp3]
        exact flush_length_le L st.current hcur

/-- Witness for claim C8 at a concrete input: splitting a 7-character
message at limit 4 yields fragments of at most 4 characters. -/
theorem claim_C8_fragment_bound_witness :
    (1 ≤ 4) ∧ ∀ p ∈ split_message ('a' :: 'b' :: 'c' :: '\n' :: 'd' :: 'e' :: 'f' :: []) 4,
      p.length ≤ 4 :=
  ⟨by decide,
    claim_C8_fragment_bound ('a' :: 'b' :: 'c' :: '\n' :: 'd' :: 'e' :: 'f' :: []) 4
      (by decide)⟩

section SortLemmas

/-- Lexicographic order is irreflexive. -/
theorem lexLt_irrefl (a : List Char) : lexLt a a = false := by
  induction a with
  | nil => rfl
  | cons x xs ih => rw [lexLt, if_neg (lt_irrefl x), if_neg (lt_irrefl x), ih]

/-- Lexicographic order is transitive. -/
theorem lexLt_trans (a b c : List Char) (hab : lexLt a b = true)
    (hbc : lexLt b c = true) : lexLt a c = true := by
  induction a generalizing b c with
  | nil =>
    cases b with
    | nil => exact absurd hab (by rw [lexLt]; simp)
    | cons y ys =>
      cases c with
      | nil => exact absurd hbc (by rw [lexLt]; simp)
      | cons z zs => rw [lexLt]
  | cons x xs ih =>
    cases b with
    | nil => exact absurd hab (by rw [lexLt]; simp)
    | cons y ys =>
      cases c with
      | nil => exact absurd hbc (by rw [lexLt]; simp)
      | cons z zs =>
        rw [lexLt] at hab hbc ⊢
        by_cases hxy : x < y
        · by_cases hyz : y < z
          · rw [if_pos (lt_trans hxy hyz)]
          · rw [if_neg hyz] at hbc
            by_cases hzy : z < y
            · rw [if_pos hzy] at hbc
              exact absurd hbc (by simp)
            · have heq : y = z := le_antisymm (not_lt.1 hzy) (not_lt.1 hyz)
              rw [if_pos (heq ▸ hxy)]
        · rw [if_neg hxy] at hab
          by_cases hyx : y < x
          · rw [if_pos hyx] at hab
            exact absurd hab (by simp)
          · rw [if_neg hyx] at hab
            have hexy : x = y := le_antisymm (not_lt.1 hyx) (not_lt.1 hxy)
            by_cases hyz : y < z
            · rw [if_pos (hexy ▸ hyz)]
            · rw [if_neg hyz] at hbc
              by_cases hzy : z < y
              · rw [if_pos hzy] at hbc
                exact absurd hbc (by simp)
              · rw [if_neg hzy] at hbc
                have heyz : y = z := le_antisymm (not_lt.1 hzy) (not_lt.1 hyz)
                have hexz : x = z := hexy.trans heyz
                rw [if_neg (hexz ▸ lt_irrefl x), if_neg (hexz ▸ lt_irrefl x)]
                exact ih ys zs hab hbc

/-- Lexicographic order is total up to equality. -/
theorem lexLt_total (a b : List Char) :
    lexLt a b = true ∨ a = b ∨ lexLt b a = true := by
  induction a generalizing b with
  | nil =>
    cases b with
    | nil => exact Or.inr (Or.inl rfl)
    | cons y ys => exact Or.inl (by rw [lexLt])
  | cons x xs ih =>
    cases b with
    | nil => exact Or.inr (Or.inr (by rw [lexLt]))
    | cons y ys =>
      rcases lt_trichotomy x y with hxy | hxy | hxy
      · exact Or.inl (by rw [lexLt, if_pos hxy])
      · subst hxy
        rcases ih ys with h | h | h
        · exact Or.inl (by rw [lexLt, if_neg (lt_irrefl x), if_neg (lt_irrefl x)]; exact h)
        · exact Or.inr (Or.inl (by rw [h]))
        · exact Or.inr (Or.inr (by rw [lexLt, if_neg (lt_irrefl x), if_neg (lt_irrefl x)]; exact h))
      · exact Or.inr (Or.inr (by rw [lexLt, if_pos hxy]))

/-- Asymmetry of the lexicographic order. -/
theorem lexLt_asymm (a b : List Char) (h : lexLt a b = true) :
    lexLt b a = false := by
  by_contra hc
  have h2 : lexLt b a = true := by
    cases hba : lexLt b a with
    | false => exact absurd hba hc
    | true => rfl
  have := lexLt_trans a b a h h2
  rw [lexLt_irrefl a] at this
  exact absurd this (by simp)

/-- Negations of the strict order compose transitively. -/
theorem lexLt_neg_trans (a b c : List Char)
    (h1 : lexLt b a = false) (h2 : lexLt c b = false) :
    lexLt c a = false := by
  cases hca : lexLt c a with
  | false => rfl
  | true =>
    rcases lexLt_total a b with h | h | h
    · rw [lexLt_trans c a b hca h] at h2
      exact absurd h2 (by simp)
    · subst h
      rw [hca] at h2
      exact absurd h2 (by simp)
    · rw [h] at h1
      exact absurd h1 (by simp)

/-- Stable insertion permutes the extended list. -/
theorem insertByTs_perm (a : AMsg) (l : List AMsg) :
    (insertByTs a l).Perm (a :: l) := by
  induction l with
  | nil => exact List.Perm.refl _
  | cons b l ih =>
    rw [insertByTs]
    by_cases hc : lexLt b.timestamp a.timestamp
    · rw [if_pos hc]
      exact (ih.cons b).trans (List.Perm.swap a b l)
    · rw [if_neg hc]

/-- The stable insertion sort permutes its input. -/
theorem pySortByTs_perm (l : List AMsg) : (pySortByTs l).Perm l := by
  induction l with
  | nil => exact List.Perm.refl _
  | cons a l ih =>
    rw [pySortByTs, List.foldr_cons]
    exact (insertByTs_perm a (pySortByTs l)).trans (ih.cons a)

/-- Stable insertion preserves sortedness by the timestamp key. -/
theorem insertByTs_pairwise (a : AMsg) (l : List AMsg)
    (h : List.Pairwise (fun x y : AMsg => lexLt y.timestamp x.timestamp = false) l) :
    List.Pairwise (fun x y : AMsg => lexLt y.timestamp x.timestamp = false)
      (insertByTs a l) := by
  induction l with
  | nil => exact List.pairwise_singleton ..
  | cons b l ih =>
    rw [List.pairwise_cons] at h
    obtain ⟨hb, hl⟩ := h
    rw [insertByTs]
    by_cases hc : lexLt b.timestamp a.timestamp
    · rw [if_pos hc]
      rw [List.pairwise_cons]
      refine ⟨?_, ih hl⟩
      intro x hx
      rcases List.mem_cons.1 ((insertByTs_perm a l).mem_iff.1 hx) with rfl | hx
      · exact lexLt_asymm _ _ hc
      · exact hb x hx
    · rw [if_neg hc]
      rw [List.pairwise_cons]
      have hcf : lexLt b.timestamp a.timestamp = false := by
        cases hq : lexLt b.timestamp a.timestamp with
        | false => rfl
        | true => exact absurd hq hc
      refine ⟨?_, List.pairwise_cons.2 ⟨hb, hl⟩⟩
      intro x hx
      rcases List.mem_cons.1 hx with rfl | hx
      · exact hcf
      · exact lexLt_neg_trans a.timestamp b.timestamp x.timestamp hcf (hb x hx)

/-- The stable insertion sort yields a list sorted by the key. -/
theorem pySortByTs_pairwise (l : List AMsg) :
    List.Pairwise (fun x y : AMsg => lexLt y.timestamp x.timestamp = false)
      (pySortByTs l) := by
  induction l with
  | nil => exact List.Pairwise.nil
  | cons a l ih =>
    rw [pySortByTs, List.foldr_cons]
    exact insertByTs_pairwise a (pySortByTs l) ih

/-- Entries of one timestamp key pass through stable insertion in
order: inserting an entry of key `k` prepends it to the key-`k`
subsequence, and other insertions leave that subsequence unchanged. -/
theorem insertByTs_filter_key (a : AMsg) (l : List AMsg) (k : List Char) :
    (insertByTs a l).filter (fun m => decide (m.timestamp = k))
      = if a.timestamp = k
          then a :: l.filter (fun m => decide (m.timestamp = k))
          else l.filter (fun m => decide (m.timestamp = k)) := by
  induction l with
  | nil =>
    by_cases hak : a.timestamp = k
    · rw [if_pos hak]
      simp [insertByTs, hak]
    · rw [if_neg hak]
      simp [insertByTs, hak]
  | cons b l ih =>
    rw [insertByTs]
    by_cases hc : lexLt b.timestamp a.timestamp
    · rw [if_pos hc]
      by_cases hak : a.timestamp = k
      · have hbk : ¬ b.timestamp = k := by
          intro hbk
          rw [hak] at hc
          rw [hbk] at hc
          rw [lexLt_irrefl k] at hc
          exact absurd hc (by simp)
        rw [if_pos hak]
        rw [List.filter_cons, List.filter_cons]
        simp only [hbk, decide_eq_true_eq, if_neg]
        rw [ih, if_pos hak]
        simp [hbk]
      · rw [if_neg hak]
        rw [List.filter_cons, List.filter_cons]
        rw [ih, if_neg hak]
    · rw [if_neg hc]
      by_cases hak : a.timestamp = k
      · rw [if_pos hak]
        rw [List.filter_cons]
        simp [hak]
      · rw [if_neg hak]
        rw [List.filter_cons]
        simp [hak]

/-- The stable sort leaves each equal-key subsequence in arrival
order. -/
theorem pySortByTs_stable (l : List AMsg) (k : List Char) :
    (pySortByTs l).filter (fun m => decide (m.timestamp = k))
      = l.filter (fun m => decide (m.timestamp = k)) := by
  induction l with
  | nil => rfl
  | cons a l ih =>
    rw [show pySortByTs (a :: l) = insertByTs a (pySortByTs l) from rfl]
    rw [insertByTs_filter_key a (pySortByTs l) k]
    rw [List.filter_cons]
    by_cases hak : a.timestamp = k
    · rw [if_pos hak, ih]
      simp [hak]
    · rw [if_neg hak, ih]
      simp [hak]

end SortLemmas

/-- Claim C7 — stable chronological ordering of the merged transcript
(`src/fetcher.py` line 100): provided lexicographic comparison of the
timestamp strings agrees with the chronological order `p`, the sorted
transcript never places a chronologically later entry before an earlier
one, and entries of equal timestamp keep their pre-sort arrival
order. -/
theorem claim_C7_stable_order (l : List AMsg) (p : List Char → Nat)
    (hag : ∀ a ∈ l, ∀ b ∈ l, p a.timestamp < p b.timestamp →
      lexLt a.timestamp b.timestamp = true) :
    List.Pairwise (fun a b : AMsg => ¬ p b.timestamp < p a.timestamp)
      (pySortByTs l)
    ∧ ∀ k, (pySortByTs l).filter (fun m => decide (m.timestamp = k))
        = l.filter (fun m => decide (m.timestamp = k)) := by
  constructor
  · refine List.Pairwise.imp_of_mem ?_ (pySortByTs_pairwise l)
    intro a b ha hb hle hpl
    have hal : a ∈ l := (pySortByTs_perm l).mem_iff.1 ha
    have hbl : b ∈ l := (pySortByTs_perm l).mem_iff.1 hb
    rw [hag b hbl a hal hpl] at hle
    exact absurd hle (by simp)
  · exact fun k => pySortByTs_stable l k

/-- Witness for claim C7 at a concrete input: three entries with
timestamps `"b"`, `"a"`, `"a"` (the last two a tie) sort to the two
`"a"` entries in arrival order followed by the `"b"` entry. -/
theorem claim_C7_stable_order_witness :
    ((∀ a ∈ [(⟨['x'], ['u'], none, ['b']⟩ : AMsg),
             ⟨['x'], ['v'], none, ['a']⟩, ⟨['x'], ['w'], none, ['a']⟩],
       ∀ b ∈ [(⟨['x'], ['u'], none, ['b']⟩ : AMsg),
              ⟨['x'], ['v'], none, ['a']⟩, ⟨['x'], ['w'], none, ['a']⟩],
         (if a.timestamp = ['b'] then 2 else 1) < (if b.timestamp = ['b'] then 2 else 1) →
           lexLt a.timestamp b.timestamp = true))
    ∧ List.Pairwise (fun a b : AMsg =>
        ¬ (if b.timestamp = ['b'] then 2 else 1) < (if a.timestamp = ['b'] then 2 else 1))
        (pySortByTs [(⟨['x'], ['u'], none, ['b']⟩ : AMsg),
          ⟨['x'], ['v'], none, ['a']⟩, ⟨['x'], ['w'], none, ['a']⟩])
    ∧ (pySortByTs [(⟨['x'], ['u'], none, ['b']⟩ : AMsg),
          ⟨['x'], ['v'], none, ['a']⟩, ⟨['x'], ['w'], none, ['a']⟩]).filter
        (fun m => decide (m.timestamp = ['a']))
      = [(⟨['x'], ['u'], none, ['b']⟩ : AMsg),
         ⟨['x'], ['v'], none, ['a']⟩, ⟨['x'], ['w'], none, ['a']⟩].filter
          (fun m => decide (m.timestamp = ['a'])) :=
  ⟨by decide,
    (claim_C7_stable_order _ (fun s => if s = ['b'] then 2 else 1) (by decide)).1,
    (claim_C7_stable_order _ (fun s => if s = ['b'] then 2 else 1) (by decide)).2 ['a']⟩

/-- Claim C5 — the URL-wrapping post-processing is not idempotent: the
markdown-link pattern `\[([^\]]+)\]\(([^)\s]+)\)` re-matches an
already-rewritten link (its `[^)\s]+` group accepts the inserted angle
brackets), so a second application turns `[t](<http://a>)` into
`[t](<<http://a>>)`, double-wrapping the URL the claim says is never
double-wrapped.  (The bare-URL pattern guards against re-wrapping with
its `(?<![<(])` lookbehind; the link pattern has no such guard.) -/
theorem claim_C5_not_idempotent :
    generate_summary_postprocess "[t](http://a)".data = "[t](<http://a>)".data
    ∧ generate_summary_postprocess
        (generate_summary_postprocess "[t](http://a)".data)
      = "[t](<<http://a>>)".data
    ∧ generate_summary_postprocess
        (generate_summary_postprocess "[t](http://a)".data)
      ≠ generate_summary_postprocess "[t](http://a)".data := by
  decide

/-- Unfolding equation for `aggregate_fast` on one channel. -/
theorem aggregate_fast_cons (ch : List Char × List FMsg)
    (rest : List (List Char × List FMsg)) :
    aggregate_fast (ch :: rest)
      = ((ch.2.filter contentTruthy).map (fun m =>
          ⟨ch.1, pickAuthor m.global_name m.username, m.content, m.ts⟩)
            ++ (aggregate_fast rest).1,
         ch.2.length + (aggregate_fast rest).2) := rfl

/-- Unfolding equation for `aggregate_strict` on one channel. -/
theorem aggregate_strict_cons (ch : List Char × List FMsg)
    (rest : List (List Char × List FMsg)) :
    aggregate_strict (ch :: rest)
      = (ch.2.map (fun m =>
          ⟨ch.1, pickAuthor m.global_name m.username, m.content, m.ts⟩)
            ++ (aggregate_strict rest).1,
         ch.2.length + (aggregate_strict rest).2) := rfl

/-- Claim C10 (amended) — in the `fast_summarizer` aggregation every
transcript entry carries non-empty content, but the returned total
counts every fetched in-window message, content-less ones included (it
is the sum of the per-channel fetch sizes); the `fetcher.py`
aggregation additionally keeps one transcript entry per fetched
message with no content filter at all. -/
theorem claim_C10_content_totals (chans : List (List Char × List FMsg)) :
    (∀ e ∈ (aggregate_fast chans).1, ∃ c, e.content = some c ∧ c ≠ [])
    ∧ (aggregate_fast chans).2 = (chans.map (fun ch => ch.2.length)).sum
    ∧ (aggregate_strict chans).2 = (chans.map (fun ch => ch.2.length)).sum
    ∧ (aggregate_strict chans).1.length
        = (chans.map (fun ch => ch.2.length)).sum := by
  induction chans with
  | nil =>
    exact ⟨by intro e he; exact absurd he (by simp [aggregate_fast]),
      rfl, rfl, rfl⟩
  | cons ch rest ih =>
    obtain ⟨ih1, ih2, ih3, ih4⟩ := ih
    refine ⟨?_, ?_, ?_, ?_⟩
    · intro e he
      rw [aggregate_fast_cons] at he
      rcases List.mem_append.1 he with he | he
      · obtain ⟨m, hm, rfl⟩ := List.mem_map.1 he
        obtain ⟨-, hct⟩ := List.mem_filter.1 hm
        rw [contentTruthy] at hct
        cases hc : m.content with
        | none => rw [hc] at hct; exact absurd hct (by simp)
        | some c =>
          rw [hc] at hct
          refine ⟨c, rfl, ?_⟩
          intro hnil
          rw [hnil] at hct
          exact absurd hct (by simp)
      · exact ih1 e he
    · rw [aggregate_fast_cons]
      simp only [List.map_cons, List.sum_cons]
      rw [ih2]
    · rw [aggregate_strict_cons]
      simp only [List.map_cons, List.sum_cons]
      rw [ih3]
    · rw [aggregate_strict_cons]
      simp only [List.map_cons, List.sum_cons, List.length_append,
        List.length_map]
      rw [ih4]

/-- Counterexample to claim C10 as stated, at one channel holding an
in-window message with content `"hi"` and an in-window message with no
content: both variants report a total of 2, while only one retained
message is content-bearing; and the `fetcher.py` aggregation keeps the
content-less entry in the transcript as well. -/
theorem claim_C10_counterexample :
    (aggregate_fast [(['c'], [⟨0, .ok 10, some ['h', 'i'], none, none⟩,
        ⟨1, .ok 9, none, none, none⟩])]).2 = 2
    ∧ (aggregate_fast [(['c'], [⟨0, .ok 10, some ['h', 'i'], none, none⟩,
        ⟨1, .ok 9, none, none, none⟩])]).1.length = 1
    ∧ (aggregate_strict [(['c'], [⟨0, .ok 10, some ['h', 'i'], none, none⟩,
        ⟨1, .ok 9, none, none, none⟩])]).1.length = 2
    ∧ (aggregate_strict [(['c'], [⟨0, .ok 10, some ['h', 'i'], none, none⟩,
        ⟨1, .ok 9, none, none, none⟩])]).1.map AggEntry.content
      = [some ['h', 'i'], none] := by
  decide

/-- Claim C4 (amended) — whenever at least one fragment of the primary
digest fails to send, the orchestrator invokes the fallback, and the
fallback sends the entire fragment set of its freshly rebuilt fallback
digest, in order — never only the fragments that failed (the primary
path still attempts every primary fragment). -/
theorem claim_C4_fallback_full_resend (pm fm : List Char) (okF : Nat → Bool)
    (h : ∃ i, i < (split_message pm 2000).length ∧ okF i = false) :
    (on_ready_sends pm fm okF).primarySent = split_message pm 2000
    ∧ (on_ready_sends pm fm okF).fallbackSent = split_message fm 2000 := by
  obtain ⟨i, hi, hok⟩ := h
  have hlt : ((List.range (split_message pm 2000).length).filter okF).length
      < (List.range (split_message pm 2000).length).length := by
    rw [List.length_filter_lt_length_iff_exists]
    exact ⟨i, List.mem_range.2 hi, by simp [hok]⟩
  rw [List.length_range] at hlt
  constructor
  · rfl
  · simp only [on_ready_sends]
    rw [if_neg (Nat.ne_of_lt hlt)]

/-- Witness for claim C4 at a concrete input where every primary send
fails: the fallback sends the whole fallback fragment set. -/
theorem claim_C4_fallback_full_resend_witness :
    (∃ i, i < (split_message "abc".data 2000).length
      ∧ (fun _ : Nat => false) i = false)
    ∧ (on_ready_sends "abc".data "xyz".data (fun _ => false)).primarySent
        = split_message "abc".data 2000
    ∧ (on_ready_sends "abc".data "xyz".data (fun _ => false)).fallbackSent
        = split_message "xyz".data 2000 :=
  ⟨⟨0, by decide, rfl⟩,
    claim_C4_fallback_full_resend "abc".data "xyz".data (fun _ => false)
      ⟨0, by decide, rfl⟩⟩

set_option maxRecDepth 8000 in
/-- Counterexample to claim C4 as stated: with one channel `"g"`, two
messages and summary `"hi"`, every primary fragment fails, the fallback
runs — but it sends the fragment set of the regenerated fallback digest
(different header, `"> "`-quoted body, no ending block), not the
fragment set of the digest the primary path attempted. -/
theorem claim_C4_counterexample :
    (on_ready_sends
        (process_and_summarize_msg "defi".data [['g']] 2 "hi".data)
        (run_fallback_msg "defi".data [['g']] 2 "hi".data)
        (fun _ => false)).fallbackSent
      ≠ (on_ready_sends
          (process_and_summarize_msg "defi".data [['g']] 2 "hi".data)
          (run_fallback_msg "defi".data [['g']] 2 "hi".data)
          (fun _ => false)).primarySent
    ∧ (on_ready_sends
        (process_and_summarize_msg "defi".data [['g']] 2 "hi".data)
        (run_fallback_msg "defi".data [['g']] 2 "hi".data)
        (fun _ => false)).fallbackSent
      = [run_fallback_msg "defi".data [['g']] 2 "hi".data] := by
  decide
